import Mathlib

/-!
Verification of the LIF-neuron regression tutorial
(`src/examples/tutorial_regression_1.ipynb`).

Real numbers are modelled by `ℚ` (the tutorial's float arithmetic is
elementwise `+`, `*`, comparisons; exactness of floats is not at issue in
the claims below, which are about the algebraic recurrences).

The notebook delegates the per-step neuron update to `snn.Leaky` and the
surrogate spike function to `surrogate.fast_sigmoid`; that library code is
part of the repository but not under `src/`, so those two pieces are
modelled from the spec (each such definition says so in its doc comment).
Everything else (`Net.__init__`, `Net.forward`, `RegressionDataset`) is
embedded directly from the notebook source.
-/

namespace SnnTutorial

/-- The reset mechanism of a leaky cell, fixed at construction
(spec §3: subtract-threshold-on-spike, zero-on-spike, no-reset).
`lif_in` and `lif_hidden` are built with the default (subtract);
`li_out` is built with `reset_mechanism="none"`. -/
inductive ResetMode where
  | subtract : ResetMode
  | zero : ResetMode
  | none : ResetMode
deriving DecidableEq

/-- Modelled from the spec: the per-step update of `snn.Leaky` (not under
`src/`; spec §4.1). Candidate potential is `beta * prev + input`; the spike
is 1 when the candidate reaches the threshold, else 0; the new potential
applies the reset mode to the candidate. Returns `(spike, new_potential)`. -/
def leakyStep (beta threshold : ℚ) (rm : ResetMode) (input mem : ℚ) : ℚ × ℚ :=
  let c := beta * mem + input
  let s : ℚ := if threshold ≤ c then 1 else 0
  let memNew :=
    match rm with
    | ResetMode.subtract => c - threshold * s
    | ResetMode.zero => c * (1 - s)
    | ResetMode.none => c
  (s, memNew)

/-- Run a single leaky cell over a list of input currents from an initial
potential, recording each successive new potential. -/
def leakyRun (beta threshold : ℚ) (rm : ResetMode) : ℚ → List ℚ → List ℚ
  | _, [] => []
  | m, i :: rest =>
      let r := leakyStep beta threshold rm i m
      r.2 :: leakyRun beta threshold rm r.2 rest

/-- Modelled from the spec: the smooth surrogate spike function (spec §4.1:
"a steep sigmoid of (candidate_potential - threshold)"); the fast-sigmoid
shape `x / (1 + slope * |x|)` rescaled from `(-1,1)` to `(0,1)`.
The library's `surrogate.fast_sigmoid` is not under `src/`. -/
def fastSigmoid (slope x : ℚ) : ℚ :=
  (slope * x / (1 + slope * |x|) + 1) / 2

/-- The surrogate spike value for a membrane potential against a threshold:
the fast sigmoid applied to `(mem - threshold)`. -/
def surrogateSpike (slope threshold mem : ℚ) : ℚ :=
  fastSigmoid slope (mem - threshold)

/-- The learnable parameters of `Net` (notebook `Net.__init__`): three
affine stages `fc_in : 1 → H`, `fc_hidden : H → H`, `fc_out : H → 1`
(PyTorch `Linear` layers with bias), per-neuron decay/threshold vectors for
`lif_in` and `lif_hidden`, and the scalar decay of `li_out` (whose
threshold is the literal `1.0` and whose reset mechanism is "none",
both fixed in the source). -/
structure NetParams (H : ℕ) where
  wIn : Fin H → ℚ
  bIn : Fin H → ℚ
  betaIn : Fin H → ℚ
  thrIn : Fin H → ℚ
  wHidden : Fin H → Fin H → ℚ
  bHidden : Fin H → ℚ
  betaHidden : Fin H → ℚ
  thrHidden : Fin H → ℚ
  wOut : Fin H → ℚ
  bOut : ℚ
  betaOut : ℚ

/-- The three membrane potentials carried across the time loop
(`mem_1`, `mem_2`, `mem_3` in `Net.forward`). -/
@[ext]
structure NetState (H : ℕ) where
  mem1 : Fin H → ℚ
  mem2 : Fin H → ℚ
  mem3 : ℚ

/-- The zero state produced by `init_leaky()` (all potentials zero). -/
def zeroState (H : ℕ) : NetState H :=
  ⟨fun _ => 0, fun _ => 0, 0⟩

/-- `cur_in = self.fc_in(x_timestep)`: the input-stage affine map
(`in_features = 1`, so one weight per hidden neuron). -/
def inCurrent {H : ℕ} (p : NetParams H) (xt : ℚ) (i : Fin H) : ℚ :=
  p.wIn i * xt + p.bIn i

/-- `cur_hidden = self.fc_hidden(spk_in)`: the hidden-stage affine map. -/
def hiddenCurrent {H : ℕ} (p : NetParams H) (spk : Fin H → ℚ) (i : Fin H) : ℚ :=
  (Finset.univ.sum fun j => p.wHidden i j * spk j) + p.bHidden i

/-- `cur_out = self.fc_out(spk_hidden)`: the output-stage affine map. -/
def outCurrent {H : ℕ} (p : NetParams H) (spk : Fin H → ℚ) : ℚ :=
  (Finset.univ.sum fun i => p.wOut i * spk i) + p.bOut

/-- One time step of the loop body of `Net.forward`, as written in the
source: the input stage steps `lif_in` (default reset = subtract); the
hidden stage steps `self.li_out` — not `self.lif_hidden` — so it uses
`beta_out`, threshold `1.0` and reset "none"; the output stage steps
`self.li_out` again.  Returns the new state and the recorded `mem_3`. -/
def netStep {H : ℕ} (p : NetParams H) (xt : ℚ) (st : NetState H) :
    NetState H × ℚ :=
  let spkIn := fun i =>
    (leakyStep (p.betaIn i) (p.thrIn i) ResetMode.subtract (inCurrent p xt i) (st.mem1 i)).1
  let mem1N := fun i =>
    (leakyStep (p.betaIn i) (p.thrIn i) ResetMode.subtract (inCurrent p xt i) (st.mem1 i)).2
  let spkHidden := fun i =>
    (leakyStep p.betaOut 1 ResetMode.none (hiddenCurrent p spkIn i) (st.mem2 i)).1
  let mem2N := fun i =>
    (leakyStep p.betaOut 1 ResetMode.none (hiddenCurrent p spkIn i) (st.mem2 i)).2
  let mem3N := (leakyStep p.betaOut 1 ResetMode.none (outCurrent p spkHidden) st.mem3).2
  (⟨mem1N, mem2N, mem3N⟩, mem3N)

/-- The time loop of `Net.forward` from a given starting state: iterate
`netStep` over steps `0 .. n-1`, appending each recorded `mem_3`. -/
def netRunFrom {H : ℕ} (p : NetParams H) (x : ℕ → ℚ) (st : NetState H) :
    ℕ → NetState H × List ℚ
  | 0 => (st, [])
  | n + 1 =>
      let r := netRunFrom p x st n
      let s := netStep p (x n) r.1
      (s.1, r.2 ++ [s.2])

/-- `torch.stack(mem_3_rec)`: PyTorch documents that stacking an empty
tensor list is a runtime error ("stack expects a non-empty TensorList");
on a non-empty list it returns the stacked sequence. -/
def torchStack (l : List ℚ) : Except String (List ℚ) :=
  if l.isEmpty then Except.error "stack expects a non-empty TensorList"
  else Except.ok l

/-- `Net.forward`: initialize all three potentials with `init_leaky()`
(zero), run the time loop for `timesteps` steps, stack the record.
The input `x` gives the scalar sample `x[step, :, :]` for each step
(the batch has one feature; extra trailing steps are simply never read). -/
def netForward {H : ℕ} (p : NetParams H) (timesteps : ℕ) (x : ℕ → ℚ) :
    Except String (List ℚ) :=
  torchStack (netRunFrom p x (zeroState H) timesteps).2

/-- A `Net` module object: its parameters, its configured `timesteps`, and
a `carried` field modelling any residual membrane state left over from an
earlier call (the source's `forward` overwrites its local potentials with
`init_leaky()` before the loop, so `carried` is never read). -/
structure NetModule (H : ℕ) where
  params : NetParams H
  timesteps : ℕ
  carried : NetState H

/-- A stateful forward call: returns the output sequence and the module as
it stands afterwards (with the final membrane state recorded in
`carried`). -/
def NetModule.forward {H : ℕ} (m : NetModule H) (x : ℕ → ℚ) :
    Except String (List ℚ) × NetModule H :=
  let r := netRunFrom m.params x (zeroState H) m.timesteps
  (torchStack r.2, ⟨m.params, m.timesteps, r.1⟩)

/-- The three-cell wiring as the spec words it (each stage's spike computed
by that stage's own cell, so the hidden stage uses `lif_hidden`'s decay and
threshold with the default subtract reset).  Used only for comparison with
`netStep`, which embeds the source as written. -/
def netStepOwnCells {H : ℕ} (p : NetParams H) (xt : ℚ) (st : NetState H) :
    NetState H × ℚ :=
  let spkIn := fun i =>
    (leakyStep (p.betaIn i) (p.thrIn i) ResetMode.subtract (inCurrent p xt i) (st.mem1 i)).1
  let mem1N := fun i =>
    (leakyStep (p.betaIn i) (p.thrIn i) ResetMode.subtract (inCurrent p xt i) (st.mem1 i)).2
  let spkHidden := fun i =>
    (leakyStep (p.betaHidden i) (p.thrHidden i) ResetMode.subtract (hiddenCurrent p spkIn i) (st.mem2 i)).1
  let mem2N := fun i =>
    (leakyStep (p.betaHidden i) (p.thrHidden i) ResetMode.subtract (hiddenCurrent p spkIn i) (st.mem2 i)).2
  let mem3N := (leakyStep p.betaOut 1 ResetMode.none (outCurrent p spkHidden) st.mem3).2
  (⟨mem1N, mem2N, mem3N⟩, mem3N)

/-- `torch.linspace(start, end, steps)`: `steps` evenly spaced points from
`start` to `end` inclusive (a single point is `start`; zero steps give the
empty list). -/
def linspace (start endv : ℚ) (steps : ℕ) : List ℚ :=
  if steps = 1 then [start]
  else (List.range steps).map fun i => start + (endv - start) * i / (steps - 1)

/-- A constructed `RegressionDataset`: the stored sample count and the
feature/label tensors, kept as `[sample][time]` lists of scalars (the
source stores shape `[time, sample, 1]`; the layout is immaterial here). -/
structure RegressionDataset where
  numSamples : ℕ
  features : List (List ℚ)
  labels : List (List ℚ)

/-- `RegressionDataset.__len__`: returns the stored `num_samples`. -/
def RegressionDataset.len (d : RegressionDataset) : ℕ :=
  d.numSamples

/-- `RegressionDataset.__init__`: draws one random endpoint per sample
(`rng idx` models the successive `torch.rand(1)` draws), builds each
feature as `linspace 0 end timesteps`, then dispatches on `mode`:
"linear" sets labels to `features * 1`; "sqrt" draws a slope and sets
labels to `sqrt(features * slope)` (the float square root is stood in for
by `Rat.sqrt`; no claim depends on its values); any other mode raises
`NotImplementedError` at construction, before any sample can be served. -/
def RegressionDataset.init (timesteps numSamples : ℕ) (mode : String)
    (rng : ℕ → ℚ) : Except String RegressionDataset :=
  let featureLst := (List.range numSamples).map fun idx => linspace 0 (rng idx) timesteps
  if mode = "linear" then
    Except.ok ⟨numSamples, featureLst, featureLst.map fun f => f.map fun q => q * 1⟩
  else if mode = "sqrt" then
    let slope := rng numSamples
    Except.ok ⟨numSamples, featureLst, featureLst.map fun f => f.map fun q => Rat.sqrt (q * slope)⟩
  else
    Except.error "NotImplementedError: linear, sqrt"

end SnnTutorial

namespace SnnTutorial

/-! Concrete one-neuron parameter instances used by witnesses and
counterexamples.  Field order: `wIn, bIn, betaIn, thrIn, wHidden, bHidden,
betaHidden, thrHidden, wOut, bOut, betaOut`. -/

/-- Output bias `1`, every other weight/bias/decay `0`, thresholds `1`:
exhibits nonzero recorded output under all-zero input. -/
def pBias : NetParams 1 :=
  ⟨fun _ => 0, fun _ => 0, fun _ => 0, fun _ => 1, fun _ _ => 0, fun _ => 0,
   fun _ => 0, fun _ => 1, fun _ => 0, 1, 0⟩

/-- All biases zero, positive input threshold, nonzero weights and decays:
a parameter instance satisfying the amended zero-input hypotheses. -/
def pZeroBias : NetParams 1 :=
  ⟨fun _ => 2, fun _ => 0, fun _ => 1/2, fun _ => 1, fun _ _ => 3, fun _ => 0,
   fun _ => 1/4, fun _ => 2, fun _ => 5, 0, 1/3⟩

/-- Input bias `5` (so the input stage always spikes), hidden bias `2`,
`betaHidden = 0`, `thrHidden = 1`, `betaOut = 1`: at this instance the
source wiring (hidden stage stepped by `li_out`) and the spec-worded
wiring (hidden stage stepped by `lif_hidden`) give different `mem_2`. -/
def pDiverge : NetParams 1 :=
  ⟨fun _ => 0, fun _ => 5, fun _ => 0, fun _ => 1, fun _ _ => 0, fun _ => 2,
   fun _ => 0, fun _ => 1, fun _ => 0, 0, 1⟩

/-- The recorded list of the time loop has one entry per step. -/
theorem netRunFrom_length {H : ℕ} (p : NetParams H) (x : ℕ → ℚ) (st : NetState H) :
    ∀ n, (netRunFrom p x st n).2.length = n := by
  intro n
  induction n with
  | zero => rfl
  | succ n ih => simp [netRunFrom, ih]

/-- The time loop only reads inputs at indices below the step count. -/
theorem netRunFrom_congr {H : ℕ} (p : NetParams H) (x y : ℕ → ℚ) (st : NetState H) :
    ∀ T, (∀ i, i < T → x i = y i) → netRunFrom p x st T = netRunFrom p y st T := by
  intro T
  induction T with
  | zero => intro _; rfl
  | succ n ih =>
      intro h
      have h1 : netRunFrom p x st n = netRunFrom p y st n :=
        ih fun i hi => h i (Nat.lt_succ_of_lt hi)
      simp [netRunFrom, h1, h n (Nat.lt_succ_self n)]

/-- Claim C2: for an LIF cell with reset mode "none" (the output cell,
`li_out`), every step satisfies
`new_potential = beta * prev_potential + input_current`, for all inputs
and regardless of whether a spike fired. -/
theorem claim_c2_reset_none_update (beta threshold input mem : ℚ) :
    (leakyStep beta threshold ResetMode.none input mem).2 = beta * mem + input := rfl

/-- Claim C3: a single cell with `beta = 1/2`, threshold `1`, reset "none",
initial potential `0` and inputs `[2, 0, 0]` records potentials
`[2, 1, 1/2]`. -/
theorem claim_c3_decay_trace :
    leakyRun (1/2) 1 ResetMode.none 0 [2, 0, 0] = [2, 1, 1/2] := by
  norm_num [leakyRun, leakyStep]

/-- Counterexample to claim C4 as stated: with the time-step count set to
`0` the forward pass does not return an empty output — `torch.stack` on
the empty record raises — so the result is an error, not `ok []`. -/
theorem claim_c4_counterexample :
    netForward pBias 0 (fun _ => 0) = Except.error "stack expects a non-empty TensorList" ∧
    netForward pBias 0 (fun _ => 0) ≠ Except.ok [] := by
  constructor <;> simp [netForward, netRunFrom, torchStack]

/-- Claim C4 (amended): for a positive time-step count `T` the forward
pass returns an output sequence of length exactly `T`; at `T = 0` it
raises the stack error instead of returning an empty output. -/
theorem claim_c4_forward_length {H : ℕ} (p : NetParams H) (T : ℕ) (x : ℕ → ℚ) :
    (0 < T → ∃ l, netForward p T x = Except.ok l ∧ l.length = T) ∧
    (T = 0 → netForward p T x = Except.error "stack expects a non-empty TensorList") := by
  have hlen := netRunFrom_length p x (zeroState H) T
  constructor
  · intro hT
    refine ⟨(netRunFrom p x (zeroState H) T).2, ?_, hlen⟩
    have hne : (netRunFrom p x (zeroState H) T).2 ≠ [] := by
      intro hnil
      rw [hnil] at hlen
      simp at hlen
      omega
    simp [netForward, torchStack, hne]
  · rintro rfl
    simp [netForward, netRunFrom, torchStack]

/-- Witness for C4: at `T = 1` the output is `ok` of a length-1 list, and
at `T = 0` it is the stack error. -/
theorem claim_c4_witness :
    (∃ l, netForward pBias 1 (fun _ => 0) = Except.ok l ∧ l.length = 1) ∧
    netForward pBias 0 (fun _ => 0) = Except.error "stack expects a non-empty TensorList" :=
  ⟨(claim_c4_forward_length pBias 1 (fun _ => 0)).1 (by norm_num),
   (claim_c4_forward_length pBias 0 (fun _ => 0)).2 rfl⟩

/-- Claim C5: the forward pass is pure and deterministic — it starts from
the `init_leaky` zero state (first conjunct: a stateful call equals the
pure `netForward`, which begins at `zeroState`), any residual state
carried by the module is ignored (second conjunct), and running a second
forward call on the module returned by a first call gives the same output
(third conjunct). -/
theorem claim_c5_forward_pure {H : ℕ} (p : NetParams H) (T : ℕ)
    (c₁ c₂ : NetState H) (x : ℕ → ℚ) :
    ((NetModule.mk p T c₁).forward x).1 = netForward p T x ∧
    ((NetModule.mk p T c₁).forward x).1 = ((NetModule.mk p T c₂).forward x).1 ∧
    ((((NetModule.mk p T c₁).forward x).2).forward x).1 = ((NetModule.mk p T c₁).forward x).1 :=
  ⟨rfl, rfl, rfl⟩

/-- Counterexample to claim C6 as stated: the affine layers carry biases,
so an all-zero input with zero initial potentials does not give all-zero
recorded potentials — with output bias `1` the single recorded potential
is `1`, not `0`. -/
theorem claim_c6_counterexample :
    netForward pBias 1 (fun _ => 0) = Except.ok [1] ∧
    netForward pBias 1 (fun _ => 0) ≠ Except.ok [0] := by
  constructor <;>
    norm_num [netForward, netRunFrom, netStep, leakyStep, hiddenCurrent, outCurrent,
      inCurrent, zeroState, pBias, torchStack, Fin.sum_univ_one]

/-- Claim C6 (amended): provided every affine bias is zero and every
input-stage threshold is positive, an all-zero input sequence started from
the zero state records a zero potential at every time step (no spontaneous
activity). -/
theorem claim_c6_zero_input {H : ℕ} (p : NetParams H)
    (hbIn : ∀ i, p.bIn i = 0) (hbHid : ∀ i, p.bHidden i = 0) (hbOut : p.bOut = 0)
    (hthr : ∀ i, 0 < p.thrIn i) (T : ℕ) :
    (netRunFrom p (fun _ => 0) (zeroState H) T).2 = List.replicate T 0 := by
  have hin : ∀ i, leakyStep (p.betaIn i) (p.thrIn i) ResetMode.subtract
      (inCurrent p 0 i) ((zeroState H).mem1 i) = (0, 0) := by
    intro i
    simp [leakyStep, inCurrent, zeroState, hbIn, if_neg (not_le.mpr (hthr i))]
  have hstep : netStep p 0 (zeroState H) = (zeroState H, 0) := by
    simp only [netStep, hin]
    simp [leakyStep, hiddenCurrent, outCurrent, zeroState, hbHid, hbOut]
  have hrun : ∀ n, netRunFrom p (fun _ => 0) (zeroState H) n =
      (zeroState H, List.replicate n 0) := by
    intro n
    induction n with
    | zero => rfl
    | succ n ih => simp [netRunFrom, ih, hstep, List.replicate_succ']
  rw [hrun T]

/-- Witness for C6 (amended), at the zero-bias instance with two steps. -/
theorem claim_c6_witness :
    (∀ i, pZeroBias.bIn i = 0) ∧ (∀ i, pZeroBias.bHidden i = 0) ∧
    pZeroBias.bOut = 0 ∧ (∀ i, 0 < pZeroBias.thrIn i) ∧
    (netRunFrom pZeroBias (fun _ => 0) (zeroState 1) 2).2 = List.replicate 2 0 :=
  ⟨fun _ => rfl, fun _ => rfl, rfl, fun _ => by norm_num [pZeroBias],
   claim_c6_zero_input pZeroBias (fun _ => rfl) (fun _ => rfl) rfl
     (fun _ => by norm_num [pZeroBias]) 2⟩

/-- Claim C8: `lif_hidden` is never invoked by the forward pass — the
output does not depend on `lif_hidden`'s decay or threshold at all (first
conjunct) — and the hidden stage's spike/potential computation is the
output cell `li_out` (decay `betaOut`, threshold `1`, reset "none")
applied to the hidden current (second conjunct). -/
theorem claim_c8_lif_hidden_unused {H : ℕ} (p : NetParams H)
    (b t : Fin H → ℚ) (T : ℕ) (x : ℕ → ℚ) (xt : ℚ) (st : NetState H) (i : Fin H) :
    netForward { p with betaHidden := b, thrHidden := t } T x = netForward p T x ∧
    (netStep p xt st).1.mem2 i =
      (leakyStep p.betaOut 1 ResetMode.none
        (hiddenCurrent p
          (fun j => (leakyStep (p.betaIn j) (p.thrIn j) ResetMode.subtract
            (inCurrent p xt j) (st.mem1 j)).1) i)
        (st.mem2 i)).2 := by
  constructor
  · have hstep : ∀ xtc stc, netStep { p with betaHidden := b, thrHidden := t } xtc stc =
        netStep p xtc stc := fun _ _ => rfl
    have hrun : ∀ n, netRunFrom { p with betaHidden := b, thrHidden := t } x (zeroState H) n =
        netRunFrom p x (zeroState H) n := by
      intro n
      induction n with
      | zero => rfl
      | succ n ih => simp only [netRunFrom, ih, hstep]
    unfold netForward
    rw [hrun T]
  · rfl

/-- Claim C1 (the code contradicts it): at `pDiverge`, under zero input
from the zero state, the source wiring (hidden stage stepped by `li_out`)
yields hidden potential `2`, while the wiring the claim describes (hidden
stage stepped by its own `lif_hidden` cell) would yield `1`. -/
theorem claim_c1_divergence :
    (netStep pDiverge 0 (zeroState 1)).1.mem2 0 = 2 ∧
    (netStepOwnCells pDiverge 0 (zeroState 1)).1.mem2 0 = 1 ∧
    (2 : ℚ) ≠ 1 := by
  refine ⟨?_, ?_, by norm_num⟩ <;>
    norm_num [netStep, netStepOwnCells, leakyStep, hiddenCurrent, inCurrent,
      zeroState, pDiverge, Fin.sum_univ_one]

/-- Claim C10: the driver's output depends only on the first `timesteps`
entries of the input — inputs agreeing on indices `0 .. T-1` give
identical forward outputs. -/
theorem claim_c10_input_prefix {H : ℕ} (p : NetParams H) (T : ℕ) (x y : ℕ → ℚ)
    (h : ∀ i, i < T → x i = y i) :
    netForward p T x = netForward p T y := by
  unfold netForward
  rw [netRunFrom_congr p x y (zeroState H) T h]

/-- Witness for C10: two inputs that agree at index `0` and differ from
index `1` on give the same one-step output. -/
theorem claim_c10_witness :
    (∀ i, i < 1 → (fun _ : ℕ => (7 : ℚ)) i = (fun n : ℕ => if n = 0 then (7 : ℚ) else 99) i) ∧
    netForward pBias 1 (fun _ => (7 : ℚ)) =
      netForward pBias 1 (fun n => if n = 0 then (7 : ℚ) else 99) := by
  have hagree : ∀ i, i < 1 → (fun _ : ℕ => (7 : ℚ)) i =
      (fun n : ℕ => if n = 0 then (7 : ℚ) else 99) i := by
    intro i hi
    interval_cases i
    norm_num
  exact ⟨hagree, claim_c10_input_prefix pBias 1 _ _ hagree⟩

/-- Claim C9: constructing `RegressionDataset` with a mode other than
"linear" or "sqrt" fails at construction with `NotImplementedError` (no
dataset object exists, so no sample can be served); for an accepted mode
construction succeeds and `__len__` returns exactly `num_samples`. -/
theorem claim_c9_dataset_mode (timesteps numSamples : ℕ) (mode : String) (rng : ℕ → ℚ) :
    (mode ≠ "linear" → mode ≠ "sqrt" →
      RegressionDataset.init timesteps numSamples mode rng =
        Except.error "NotImplementedError: linear, sqrt") ∧
    (mode = "linear" ∨ mode = "sqrt" →
      ∃ d, RegressionDataset.init timesteps numSamples mode rng = Except.ok d ∧
        d.len = numSamples) := by
  constructor
  · intro h1 h2
    simp [RegressionDataset.init, h1, h2]
  · rintro (rfl | rfl)
    · exact ⟨_, rfl, rfl⟩
    · exact ⟨_, rfl, rfl⟩

/-- Witness for C9: mode "quadratic" is rejected at construction; mode
"linear" with two samples builds a dataset whose length is `2`. -/
theorem claim_c9_witness :
    RegressionDataset.init 3 2 "quadratic" (fun _ => 0) =
      Except.error "NotImplementedError: linear, sqrt" ∧
    (∃ d, RegressionDataset.init 3 2 "linear" (fun _ => 0) = Except.ok d ∧
      d.len = 2) :=
  ⟨(claim_c9_dataset_mode 3 2 "quadratic" (fun _ => 0)).1 (by simp) (by simp),
   (claim_c9_dataset_mode 3 2 "linear" (fun _ => 0)).2 (Or.inl rfl)⟩

/-- The rescaled fast-sigmoid core is monotone. -/
theorem fastSigmoid_core_le (k x y : ℚ) (hk : 0 < k) (hxy : x ≤ y) :
    k * x / (1 + k * |x|) ≤ k * y / (1 + k * |y|) := by
  have hnx : 0 ≤ k * |x| := mul_nonneg hk.le (abs_nonneg x)
  have hny : 0 ≤ k * |y| := mul_nonneg hk.le (abs_nonneg y)
  have hdx : 0 < 1 + k * |x| := by linarith
  have hdy : 0 < 1 + k * |y| := by linarith
  rw [div_le_div_iff₀ hdx hdy]
  rcases abs_cases x with ⟨hx, hx0⟩ | ⟨hx, hx0⟩ <;>
    rcases abs_cases y with ⟨hy, hy0⟩ | ⟨hy, hy0⟩
  · rw [hx, hy]; nlinarith [mul_pos hk hk]
  · rw [hx, hy]; nlinarith [mul_pos hk hk]
  · rw [hx, hy]
    nlinarith [mul_nonpos_iff.mpr (Or.inr ⟨hx0.le, hy0⟩), mul_pos hk hk]
  · rw [hx, hy]; nlinarith [mul_pos hk hk]

/-- The fast sigmoid lies strictly between 0 and 1. -/
theorem fastSigmoid_pos_lt_one (k x : ℚ) (hk : 0 < k) :
    0 < fastSigmoid k x ∧ fastSigmoid k x < 1 := by
  have hnx : 0 ≤ k * |x| := mul_nonneg hk.le (abs_nonneg x)
  have hd : 0 < 1 + k * |x| := by linarith
  have hup : k * x / (1 + k * |x|) < 1 := by
    rw [div_lt_one hd]
    have : k * x ≤ k * |x| := mul_le_mul_of_nonneg_left (le_abs_self x) hk.le
    linarith
  have hlo : -1 < k * x / (1 + k * |x|) := by
    rw [lt_div_iff₀ hd]
    have : k * -x ≤ k * |x| := mul_le_mul_of_nonneg_left (neg_le_abs x) hk.le
    nlinarith
  unfold fastSigmoid
  constructor <;> linarith

/-- Far above zero the fast sigmoid is within `ε` of 1. -/
theorem fastSigmoid_tail_high (k ε x : ℚ) (hk : 0 < k) (hε : 0 < ε)
    (hx : 1 / (2 * ε * k) ≤ x) : 1 - ε < fastSigmoid k x := by
  have hden : 0 < 2 * ε * k := mul_pos (mul_pos two_pos hε) hk
  have hx0 : 0 < x := lt_of_lt_of_le (div_pos one_pos hden) hx
  have habs : |x| = x := abs_of_pos hx0
  have hkx : 0 < k * x := mul_pos hk hx0
  have hd : 0 < 1 + k * x := by linarith
  have hx1 : 1 ≤ x * (2 * ε * k) := (div_le_iff₀ hden).1 hx
  have key : 1 - 2 * ε < k * x / (1 + k * x) := by
    rw [lt_div_iff₀ hd]
    nlinarith
  unfold fastSigmoid
  rw [habs]
  linarith

/-- The fast sigmoid is odd around its midpoint 1/2. -/
theorem fastSigmoid_neg (k x : ℚ) : fastSigmoid k (-x) = 1 - fastSigmoid k x := by
  unfold fastSigmoid
  rw [abs_neg]
  ring

/-- Claim C7: the surrogate spike function is monotonic in the membrane
potential, strictly between 0 and 1 everywhere (hence bounded in `[0,1]`
and strictly interior near the threshold), and approaches 1 far above the
threshold and 0 far below it. -/
theorem claim_c7_surrogate (k threshold : ℚ) (hk : 0 < k) :
    (∀ m₁ m₂, m₁ ≤ m₂ → surrogateSpike k threshold m₁ ≤ surrogateSpike k threshold m₂) ∧
    (∀ m, 0 < surrogateSpike k threshold m ∧ surrogateSpike k threshold m < 1) ∧
    (∀ ε, 0 < ε → ∃ M, 0 < M ∧
      (∀ m, threshold + M ≤ m → 1 - ε < surrogateSpike k threshold m) ∧
      (∀ m, m ≤ threshold - M → surrogateSpike k threshold m < ε)) := by
  refine ⟨?_, ?_, ?_⟩
  · intro m₁ m₂ h
    unfold surrogateSpike fastSigmoid
    have := fastSigmoid_core_le k (m₁ - threshold) (m₂ - threshold) hk (by linarith)
    linarith
  · intro m
    exact fastSigmoid_pos_lt_one k (m - threshold) hk
  · intro ε hε
    have hden : 0 < 2 * ε * k := mul_pos (mul_pos two_pos hε) hk
    refine ⟨1 / (2 * ε * k), div_pos one_pos hden, ?_, ?_⟩
    · intro m hm
      exact fastSigmoid_tail_high k ε (m - threshold) hk hε (by linarith)
    · intro m hm
      have h1 : 1 - ε < fastSigmoid k (threshold - m) :=
        fastSigmoid_tail_high k ε (threshold - m) hk hε (by linarith)
      have h2 : fastSigmoid k (m - threshold) = 1 - fastSigmoid k (threshold - m) := by
        have h3 := fastSigmoid_neg k (threshold - m)
        rw [show -(threshold - m) = m - threshold by ring] at h3
        exact h3
      unfold surrogateSpike
      rw [h2]
      linarith

/-- Witness for C7 at slope 1, threshold 1: the surrogate at the threshold
is strictly interior, and the tail bounds hold at `ε = 1/10`. -/
theorem claim_c7_witness :
    (0 < (1 : ℚ)) ∧ (0 < surrogateSpike 1 1 1 ∧ surrogateSpike 1 1 1 < 1) ∧
    (∃ M, 0 < M ∧
      (∀ m, 1 + M ≤ m → 1 - 1/10 < surrogateSpike 1 1 m) ∧
      (∀ m, m ≤ 1 - M → surrogateSpike 1 1 m < 1/10)) :=
  ⟨by norm_num, (claim_c7_surrogate 1 1 (by norm_num)).2.1 1,
   (claim_c7_surrogate 1 1 (by norm_num)).2.2 (1/10) (by norm_num)⟩

end SnnTutorial
